import Mathlib

/-!
Verification of the `simple_env_load` .env parser (`src/lib.rs`).

Strings are modelled as `List Char`; `str::lines`, `str::trim`,
`str::splitn`, `char_indices` and the quote-scanning state machine of
`parse_str` are embedded as executable Lean functions below.
-/

namespace SimpleEnvLoad

/-- Models Rust `char::is_whitespace` on the characters relevant here
(space, tab, carriage return, line feed). -/
def isWS (c : Char) : Bool := c.isWhitespace

/-- Models `str::trim_start`: drop leading whitespace. -/
def ltrim (l : List Char) : List Char := l.dropWhile isWS

/-- Models `str::trim_end`: drop trailing whitespace. -/
def rtrim (l : List Char) : List Char := (l.reverse.dropWhile isWS).reverse

/-- Models `str::trim`: drop whitespace at both ends. -/
def trim (l : List Char) : List Char := ltrim (rtrim l)

/-- Models `str::split_inclusive('\n')`: pieces keep their terminator;
the empty string yields no pieces. -/
def splitInclusive (sep : Char) : List Char → List (List Char)
  | [] => []
  | c :: rest =>
    if c = sep then [c] :: splitInclusive sep rest
    else
      match splitInclusive sep rest with
      | [] => [[c]]
      | x :: xs => (c :: x) :: xs

/-- Models the per-line map of `str::lines`: strip one trailing `'\n'`,
and when one was stripped also one trailing `'\r'`. -/
def lineMap (l : List Char) : List Char :=
  if l.getLast? = some '\n' then
    let l' := l.dropLast
    if l'.getLast? = some '\r' then l'.dropLast else l'
  else l

/-- Models Rust `str::lines` (`data.lines()` in `parse`). -/
def lines (data : List Char) : List (List Char) :=
  (splitInclusive '\n' data).map lineMap

/-- Models `s.splitn(2, sep)`: the part before the first `sep` and the
rest after it, or the whole string when `sep` does not occur. -/
def splitn2 (sep : Char) (s : List Char) : List (List Char) :=
  if s.any (fun c => c = sep) then
    [s.takeWhile (fun c => c ≠ sep), (s.dropWhile (fun c => c ≠ sep)).tail]
  else [s]

/-- Models the closure `|c| matches!(c, '"' | '\'')` used by
`input.contains` in `parse_str`. -/
def isQuote (c : Char) : Bool := c = '"' || c = '\''

/-- The `Flavor` enum of `parse_str`. -/
inductive Flavor
  | Single
  | Double
  | Unknown
  deriving DecidableEq, Repr

/-- The delimiter character selected by a flavor (`match flavor` in the
loop body; `Unknown` is unreachable there, Rust's `unreachable!()`). -/
def delim : Flavor → Char
  | .Single => '\''
  | .Double => '"'
  | .Unknown => ' '

/-- The scanning loop of `parse_str`: `for (i, c) in input.char_indices()`
with mutable `flavor`, `start`, `end`, breaking once both offsets are
known. `i` is the index of the head character. -/
def scanQuotes : List Char → Nat → Flavor → Option Nat → Option Nat →
    Option Nat × Option Nat
  | [], _, _, s, e => (s, e)
  | c :: rest, i, flavor, s, e =>
    if s.isSome && e.isSome then (s, e)
    else
      let f :=
        match flavor with
        | .Unknown =>
          if c = '\'' then Flavor.Single
          else if c = '"' then Flavor.Double
          else Flavor.Unknown
        | f => f
      if f = Flavor.Unknown then scanQuotes rest (i + 1) f s e
      else if delim f = c then
        match s, e with
        | none, _ => scanQuotes rest (i + 1) f (some (i + 1)) e
        | some _, none => scanQuotes rest (i + 1) f s (some (i - 1))
        | some _, some _ => scanQuotes rest (i + 1) f s e
      else scanQuotes rest (i + 1) f s e

/-- Models the checked slice `input.get(a..b)`: `some` of the slice when
the range is within bounds, otherwise `none`. -/
def sliceGet (l : List Char) (a b : Nat) : Option (List Char) :=
  if a ≤ b ∧ b ≤ l.length then some ((l.drop a).take (b - a)) else none

/-- `parse_str` from `src/lib.rs`: the value/key normalizer.  No quote
character: take the part before the first `'#'`, trimmed.  Otherwise run
the quote scan and return `input.get(start..start + end)` when both
offsets were found. -/
def parse_str (input : List Char) : Option (List Char) :=
  if ¬ input.any isQuote then
    some (trim (input.takeWhile (fun c => c ≠ '#')))
  else
    match scanQuotes input 0 .Unknown none none with
    | (some s, some e) => sliceGet input s (s + e)
    | _ => none

/-- The body of the `filter_map` closure in `parse`, applied to a trimmed
line: reject `'#'`-prefixed lines, split on the first `'='`, trim and
normalize both parts, and require both to succeed. -/
def extractLine (s : List Char) : Option (List Char × List Char) :=
  if s.head? = some '#' then none
  else
    match (splitn2 '=' s).map (fun p => parse_str (trim p)) with
    | [some head, some tail] => some (head, tail)
    | _ => none

/-- `parse` from `src/lib.rs`:
`data.lines().map(<str>::trim).filter_map(...)` collected in order. -/
def parse (data : List Char) : List (List Char × List Char) :=
  ((lines data).map trim).filterMap extractLine

/-! ### Lemmas about trimming -/

theorem rtrim_eq_rdropWhile (l : List Char) : rtrim l = l.rdropWhile isWS := rfl

theorem dropWhile_append_cons {p : Char → Bool} {y : Char} (hy : p y = false)
    (xs ys : List Char) :
    (xs ++ y :: ys).dropWhile p = xs.dropWhile p ++ y :: ys := by
  rw [List.dropWhile_append]
  split
  · next h =>
    rw [List.isEmpty_iff] at h
    rw [h, List.nil_append, List.dropWhile_cons_of_neg (by simp [hy])]
  · rfl

theorem rtrim_append_cons {y : Char} (hy : isWS y = false) (xs ys : List Char) :
    rtrim (xs ++ y :: ys) = xs ++ y :: rtrim ys := by
  simp only [rtrim, List.reverse_append, List.reverse_cons, List.append_assoc,
    List.singleton_append]
  rw [dropWhile_append_cons hy]
  simp [List.reverse_append]

theorem ltrim_append_cons {y : Char} (hy : isWS y = false) (xs ys : List Char) :
    ltrim (xs ++ y :: ys) = ltrim xs ++ y :: ys := by
  simp only [ltrim]
  exact dropWhile_append_cons hy xs ys

theorem trim_append_mid {m : Char} (hm : isWS m = false) (K V : List Char) :
    trim (K ++ m :: V) = ltrim K ++ m :: rtrim V := by
  rw [trim, rtrim_append_cons hm, ltrim_append_cons hm]

theorem ltrim_idem (l : List Char) : ltrim (ltrim l) = ltrim l := by
  simp only [ltrim]
  exact List.dropWhile_idempotent isWS l

theorem rtrim_idem (l : List Char) : rtrim (rtrim l) = rtrim l := by
  simp only [rtrim_eq_rdropWhile]
  exact List.rdropWhile_idempotent isWS l

theorem mem_of_mem_ltrim {a : Char} {l : List Char} (h : a ∈ ltrim l) : a ∈ l :=
  ((List.dropWhile_suffix isWS).sublist).mem h

theorem mem_of_mem_rtrim {a : Char} {l : List Char} (h : a ∈ rtrim l) : a ∈ l := by
  rw [rtrim_eq_rdropWhile] at h
  exact ((List.rdropWhile_prefix isWS l).sublist).mem h

theorem mem_of_mem_trim {a : Char} {l : List Char} (h : a ∈ trim l) : a ∈ l :=
  mem_of_mem_rtrim (mem_of_mem_ltrim h)

theorem dropWhile_head_false {p : Char → Bool} :
    ∀ (l : List Char) {m : Char} {B : List Char},
      l.dropWhile p = m :: B → p m = false := by
  intro l
  induction l with
  | nil => intro m B h; simp at h
  | cons c t ih =>
    intro m B h
    by_cases hc : p c
    · rw [List.dropWhile_cons_of_pos hc] at h
      exact ih h
    · rw [List.dropWhile_cons_of_neg hc] at h
      cases h
      exact Bool.eq_false_iff.mpr hc

theorem ltrim_rtrim_comm (l : List Char) : ltrim (rtrim l) = rtrim (ltrim l) := by
  by_cases h : ∀ x ∈ l, isWS x = true
  · have h1 : ltrim l = [] := by
      simp only [ltrim, List.dropWhile_eq_nil_iff]
      intro x hx
      exact h x hx
    have h2 : rtrim l = [] := by
      rw [rtrim_eq_rdropWhile]
      exact List.rdropWhile_eq_nil_iff.mpr h
    rw [h1, h2]
    rfl
  · push_neg at h
    have hd : l.dropWhile isWS ≠ [] := by
      intro hnil
      obtain ⟨x, hx, hxw⟩ := h
      have := List.dropWhile_eq_nil_iff.mp hnil x hx
      simp [this] at hxw
    obtain ⟨m, B, hmB⟩ := List.exists_cons_of_ne_nil hd
    have hm : isWS m = false := dropWhile_head_false l hmB
    have hA : ∀ x ∈ l.takeWhile isWS, isWS x = true := fun x hx =>
      List.mem_takeWhile_imp hx
    have hl : l = l.takeWhile isWS ++ m :: B := by
      conv_lhs => rw [← List.takeWhile_append_dropWhile (p := isWS) (l := l)]
      rw [hmB]
    rw [hl]
    have hltrim : ltrim (l.takeWhile isWS ++ m :: B) = m :: B := by
      simp only [ltrim]
      rw [List.dropWhile_append_of_pos hA, List.dropWhile_cons_of_neg (by simp [hm])]
    rw [hltrim, rtrim_append_cons hm]
    have h1 : rtrim (m :: B) = m :: rtrim B := by
      have := rtrim_append_cons hm [] B
      simpa using this
    rw [h1]
    simp only [ltrim]
    rw [List.dropWhile_append_of_pos hA, List.dropWhile_cons_of_neg (by simp [hm])]

theorem trim_idem (l : List Char) : trim (trim l) = trim l := by
  have h1 : rtrim (ltrim (rtrim l)) = ltrim (rtrim l) := by
    rw [← ltrim_rtrim_comm, rtrim_idem]
  rw [trim, trim, h1, ltrim_idem]

theorem trim_ltrim (l : List Char) : trim (ltrim l) = trim l := by
  rw [trim, ← ltrim_rtrim_comm, ltrim_idem, ← trim]

theorem trim_rtrim (l : List Char) : trim (rtrim l) = trim l := by
  rw [trim, rtrim_idem, ← trim]

theorem trim_concat_ws {c : Char} (hc : isWS c = true) (l : List Char) :
    trim (l ++ [c]) = trim l := by
  rw [trim, trim, rtrim_eq_rdropWhile, rtrim_eq_rdropWhile,
    List.rdropWhile_concat_pos _ _ _ hc]

/-! ### Lemmas about `splitn2` -/

theorem takeWhile_append_cons {p : Char → Bool} {y : Char} (hy : p y = false)
    (h : ∀ x ∈ A, p x = true) (B : List Char) :
    (A ++ y :: B).takeWhile p = A := by
  induction A with
  | nil =>
    simp only [List.nil_append]
    rw [List.takeWhile_cons_of_neg (by simp [hy])]
  | cons a A ih =>
    have ha : p a = true := h a (List.mem_cons_self a A)
    simp only [List.cons_append, List.takeWhile_cons_of_pos ha]
    rw [ih fun x hx => h x (List.mem_cons_of_mem a hx)]

theorem splitn2_append (sep : Char) (A B : List Char) (h : ∀ x ∈ A, x ≠ sep) :
    splitn2 sep (A ++ sep :: B) = [A, B] := by
  have hany : (A ++ sep :: B).any (fun c => c = sep) = true := by
    simp only [List.any_eq_true]
    exact ⟨sep, List.mem_append_right _ (List.mem_cons_self sep B), by simp⟩
  have htake : (A ++ sep :: B).takeWhile (fun c => decide (c ≠ sep)) = A :=
    takeWhile_append_cons (by simp) (fun x hx => by simp [h x hx]) B
  have hdrop : (A ++ sep :: B).dropWhile (fun c => decide (c ≠ sep)) = sep :: B := by
    rw [List.dropWhile_append_of_pos (fun x hx => by simp [h x hx]),
      List.dropWhile_cons_of_neg (by simp)]
  simp only [splitn2, hany, if_true]
  rw [htake, hdrop]
  rfl

/-! ### Lemmas about `parse_str` on unquoted input -/

theorem parse_str_no_quote {v : List Char} (h : ∀ c ∈ v, isQuote c = false) :
    parse_str v = some (trim (v.takeWhile (fun c => c ≠ '#'))) := by
  have hany : v.any isQuote = false := by
    simp only [List.any_eq_false]
    intro x hx
    simp [h x hx]
  simp [parse_str, hany]

theorem parse_str_clean {v : List Char}
    (h : ∀ c ∈ v, isQuote c = false ∧ c ≠ '#') :
    parse_str v = some (trim v) := by
  rw [parse_str_no_quote fun c hc => (h c hc).1]
  have : v.takeWhile (fun c => decide (c ≠ '#')) = v :=
    List.takeWhile_eq_self_iff.mpr fun x hx => by simp [(h x hx).2]
  rw [this]

/-! ### Lemmas about `extractLine` -/

theorem extractLine_nil : extractLine [] = none := rfl

theorem extractLine_comment {s : List Char} (h : s.head? = some '#') :
    extractLine s = none := by
  simp [extractLine, h]

/-! ### Lemmas about `splitInclusive` and `lines` -/

theorem splitInclusive_no_sep (sep : Char) :
    ∀ (l : List Char), l ≠ [] → (∀ x ∈ l, x ≠ sep) → splitInclusive sep l = [l] := by
  intro l
  induction l with
  | nil => intro h _; exact absurd rfl h
  | cons c t ih =>
    intro _ h
    have hc : c ≠ sep := h c (List.mem_cons_self c t)
    cases t with
    | nil => simp [splitInclusive, hc]
    | cons d u =>
      have ht := ih (by simp) (fun x hx => h x (List.mem_cons_of_mem c hx))
      rw [splitInclusive.eq_2, if_neg hc, ht]

theorem lineMap_of_ne {l : List Char} (h : l.getLast? ≠ some '\n') :
    lineMap l = l := by
  simp only [lineMap]
  rw [if_neg h]

/-! ### A single candidate `KEY=value` line parses to one entry -/

theorem parse_single (K V : List Char)
    (hK : ∀ c ∈ K, isQuote c = false ∧ c ≠ '#' ∧ c ≠ '=' ∧ c ≠ '\n')
    (hV : ∀ c ∈ V, isQuote c = false ∧ c ≠ '#' ∧ c ≠ '\n') :
    parse (K ++ '=' :: V) = [(trim K, trim V)] := by
  have hne : K ++ '=' :: V ≠ [] := by simp
  have hnolf : ∀ x ∈ K ++ '=' :: V, x ≠ '\n' := by
    intro x hx
    rcases List.mem_append.mp hx with h | h
    · exact (hK x h).2.2.2
    · rcases List.mem_cons.mp h with h | h
      · subst h; decide
      · exact (hV x h).2.2
  have hsplit : splitInclusive '\n' (K ++ '=' :: V) = [K ++ '=' :: V] :=
    splitInclusive_no_sep _ _ hne hnolf
  have hlast : (K ++ '=' :: V).getLast? ≠ some '\n' := by
    rw [List.getLast?_append_of_ne_nil _ (by simp)]
    rcases List.eq_nil_or_concat V with h | ⟨W, c, h⟩
    · subst h; decide
    · subst h
      have hc := (hV c (by simp)).2.2
      simp only [List.concat_eq_append]
      rw [show ('=' :: (W ++ [c])) = ('=' :: W) ++ [c] by simp, List.getLast?_concat]
      simp [hc]
  have htrim : trim (K ++ '=' :: V) = ltrim K ++ '=' :: rtrim V :=
    trim_append_mid (by decide) K V
  have hhead : ¬ (ltrim K ++ '=' :: rtrim V).head? = some '#' := by
    cases hlK : ltrim K with
    | nil => simp
    | cons c t =>
      have hcK : c ∈ K := mem_of_mem_ltrim (hlK ▸ List.mem_cons_self c t)
      have := (hK c hcK).2.1
      simp [this]
  have hsp : splitn2 '=' (ltrim K ++ '=' :: rtrim V) = [ltrim K, rtrim V] :=
    splitn2_append '=' _ _ (fun x hx => (hK x (mem_of_mem_ltrim hx)).2.2.1)
  have hkey : parse_str (trim (ltrim K)) = some (trim K) := by
    rw [trim_ltrim,
      parse_str_clean (fun c hc =>
        ⟨(hK c (mem_of_mem_trim hc)).1, (hK c (mem_of_mem_trim hc)).2.1⟩),
      trim_idem]
  have hval : parse_str (trim (rtrim V)) = some (trim V) := by
    rw [trim_rtrim,
      parse_str_clean (fun c hc =>
        ⟨(hV c (mem_of_mem_trim hc)).1, (hV c (mem_of_mem_trim hc)).2.1⟩),
      trim_idem]
  have hex : extractLine (ltrim K ++ '=' :: rtrim V) = some (trim K, trim V) := by
    unfold extractLine
    rw [if_neg hhead, hsp]
    simp only [List.map_cons, List.map_nil]
    rw [hkey, hval]
  unfold parse lines
  rw [hsplit]
  simp only [List.map_cons, List.map_nil, lineMap_of_ne hlast, htrim]
  rw [List.filterMap_cons_some hex]
  rfl

/-! ### Characterizing the quote scan of `parse_str` -/

/-- The flavor fixed by a character (the `match c` in the `Unknown` arm). -/
def flavorOf (c : Char) : Flavor :=
  if c = '\'' then .Single else if c = '"' then .Double else .Unknown

theorem flavorOf_not_quote {c : Char} (h : isQuote c = false) :
    flavorOf c = Flavor.Unknown := by
  simp only [isQuote, Bool.or_eq_false_iff, decide_eq_false_iff_not] at h
  simp [flavorOf, h.1, h.2]

theorem flavorOf_quote {c : Char} (h : isQuote c = true) :
    delim (flavorOf c) = c ∧ flavorOf c ≠ Flavor.Unknown := by
  simp only [isQuote, Bool.or_eq_true, decide_eq_true_eq] at h
  rcases h with h | h <;> subst h <;> simp [flavorOf, delim]

theorem scanQuotes_skip_unknown {A : List Char}
    (hA : ∀ c ∈ A, isQuote c = false) (rest : List Char) (i : Nat) :
    scanQuotes (A ++ rest) i .Unknown none none
      = scanQuotes rest (i + A.length) .Unknown none none := by
  induction A generalizing i with
  | nil => simp
  | cons c A ih =>
    have hc := flavorOf_not_quote (hA c (List.mem_cons_self c A))
    have hrec := ih (fun x hx => hA x (List.mem_cons_of_mem c hx)) (i + 1)
    have harith : i + 1 + A.length = i + (c :: A).length := by
      simp only [List.length_cons]
      omega
    rw [List.cons_append, scanQuotes.eq_2]
    simp only [Option.isSome_none, Bool.and_self, Bool.false_eq_true, if_false,
      List.append_eq]
    rw [show (if c = '\'' then Flavor.Single
        else if c = '"' then Flavor.Double else Flavor.Unknown) = flavorOf c from rfl,
      hc, if_pos rfl, hrec, harith]

theorem scanQuotes_open {qc : Char} (hq : isQuote qc = true) (rest : List Char)
    (i : Nat) :
    scanQuotes (qc :: rest) i .Unknown none none
      = scanQuotes rest (i + 1) (flavorOf qc) (some (i + 1)) none := by
  obtain ⟨hd, hne⟩ := flavorOf_quote hq
  rw [scanQuotes.eq_2]
  simp only [Option.isSome_none, Bool.and_self, Bool.false_eq_true, if_false,
    List.append_eq]
  rw [show (if qc = '\'' then Flavor.Single
      else if qc = '"' then Flavor.Double else Flavor.Unknown) = flavorOf qc from rfl]
  rw [if_neg hne, if_pos hd]

theorem scanQuotes_skip_inquote {f : Flavor} (hf : f ≠ .Unknown) {C : List Char}
    (hC : ∀ c ∈ C, delim f ≠ c) (rest : List Char) (i st : Nat) :
    scanQuotes (C ++ rest) i f (some st) none
      = scanQuotes rest (i + C.length) f (some st) none := by
  induction C generalizing i with
  | nil => simp
  | cons c C ih =>
    have hc : ¬ delim f = c := hC c (List.mem_cons_self c C)
    have hrec := ih (fun x hx => hC x (List.mem_cons_of_mem c hx)) (i + 1)
    have harith : i + 1 + C.length = i + (c :: C).length := by
      simp only [List.length_cons]
      omega
    cases f with
    | Unknown => exact absurd rfl hf
    | Single =>
      simp only [List.cons_append, scanQuotes, Option.isSome_some, Option.isSome_none,
        Bool.and_false, Bool.false_eq_true, if_false, List.append_eq]
      rw [if_neg (by simp), if_neg hc, hrec, harith]
    | Double =>
      simp only [List.cons_append, scanQuotes, Option.isSome_some, Option.isSome_none,
        Bool.and_false, Bool.false_eq_true, if_false, List.append_eq]
      rw [if_neg (by simp), if_neg hc, hrec, harith]

theorem scanQuotes_close {f : Flavor} (hf : f ≠ .Unknown) {qc : Char}
    (hd : delim f = qc) (rest : List Char) (i st : Nat) :
    scanQuotes (qc :: rest) i f (some st) none
      = scanQuotes rest (i + 1) f (some st) (some (i - 1)) := by
  cases f with
  | Unknown => exact absurd rfl hf
  | Single =>
    simp only [scanQuotes, Option.isSome_some, Option.isSome_none, Bool.and_false,
      Bool.false_eq_true, if_false, List.append_eq]
    rw [if_neg (by simp), if_pos hd]
  | Double =>
    simp only [scanQuotes, Option.isSome_some, Option.isSome_none, Bool.and_false,
      Bool.false_eq_true, if_false, List.append_eq]
    rw [if_neg (by simp), if_pos hd]

theorem scanQuotes_done (l : List Char) (i : Nat) (f : Flavor) (st e : Nat) :
    scanQuotes l i f (some st) (some e) = (some st, some e) := by
  cases l with
  | nil => rfl
  | cons c rest => simp [scanQuotes]

theorem scanQuotes_main {A C : List Char} (D : List Char) {qc : Char}
    (hA : ∀ c ∈ A, isQuote c = false) (hq : isQuote qc = true)
    (hC : ∀ c ∈ C, c ≠ qc) :
    scanQuotes (A ++ qc :: (C ++ qc :: D)) 0 .Unknown none none
      = (some (A.length + 1), some (A.length + C.length)) := by
  obtain ⟨hd, hne⟩ := flavorOf_quote hq
  rw [scanQuotes_skip_unknown hA, Nat.zero_add,
    scanQuotes_open hq,
    scanQuotes_skip_inquote hne (fun x hx => by rw [hd]; exact Ne.symm (hC x hx)),
    scanQuotes_close hne hd,
    scanQuotes_done]
  congr 2
  omega

theorem parse_str_quoted {A C : List Char} (D : List Char) {qc : Char}
    (hA : ∀ c ∈ A, isQuote c = false) (hq : isQuote qc = true)
    (hC : ∀ c ∈ C, c ≠ qc) :
    parse_str (A ++ qc :: (C ++ qc :: D))
      = sliceGet (A ++ qc :: (C ++ qc :: D)) (A.length + 1)
          ((A.length + 1) + (A.length + C.length)) := by
  have hany : (A ++ qc :: (C ++ qc :: D)).any isQuote = true := by
    simp only [List.any_eq_true]
    exact ⟨qc, List.mem_append_right _ (List.mem_cons_self _ _), hq⟩
  unfold parse_str
  rw [if_neg (by simp [hany])]
  rw [scanQuotes_main D hA hq hC]

theorem length_quoted (A C D : List Char) (qc : Char) :
    (A ++ qc :: (C ++ qc :: D)).length = A.length + C.length + D.length + 2 := by
  simp only [List.length_append, List.length_cons]
  omega

theorem parse_str_quoted_head (C D : List Char) {qc : Char}
    (hq : isQuote qc = true) (hC : ∀ c ∈ C, c ≠ qc) :
    parse_str (qc :: (C ++ qc :: D)) = some C := by
  have h := parse_str_quoted (A := []) D (by simp) hq hC
  simp only [List.nil_append, List.length_nil, Nat.zero_add] at h
  rw [h]
  unfold sliceGet
  rw [if_pos ⟨by omega, by
    have := length_quoted [] C D qc
    simp only [List.nil_append] at this
    omega⟩]
  congr 1
  rw [List.drop_one, List.tail_cons, Nat.add_comm 1 C.length, Nat.add_sub_cancel]
  exact List.take_left C (qc :: D)

/-! ### How `splitInclusive` treats an inserted line terminator -/

theorem splitInclusive_ne_nil (sep : Char) {l : List Char} (hl : l ≠ []) :
    splitInclusive sep l ≠ [] := by
  cases l with
  | nil => exact absurd rfl hl
  | cons c t =>
    rw [splitInclusive.eq_2]
    split
    · simp
    · split <;> simp

theorem splitInclusive_cons_ne {sep c : Char} (hc : c ≠ sep) {t x : List Char}
    {xs : List (List Char)} (h : splitInclusive sep t = x :: xs) :
    splitInclusive sep (c :: t) = (c :: x) :: xs := by
  rw [splitInclusive.eq_2, if_neg hc, h]

theorem splitInclusive_cons_sep (sep : Char) (t : List Char) :
    splitInclusive sep (sep :: t) = [sep] :: splitInclusive sep t := by
  rw [splitInclusive.eq_2, if_pos rfl]

theorem splitInclusive_append_sep (sep : Char) (b : List Char) :
    ∀ a : List Char, splitInclusive sep (a ++ sep :: b)
      = splitInclusive sep (a ++ [sep]) ++ splitInclusive sep b := by
  intro a
  induction a with
  | nil =>
    simp only [List.nil_append, splitInclusive_cons_sep]
    rfl
  | cons c a ih =>
    by_cases hc : c = sep
    · subst hc
      simp only [List.cons_append, splitInclusive_cons_sep, ih]
    · obtain ⟨x, xs, hx⟩ :=
        List.exists_cons_of_ne_nil (splitInclusive_ne_nil sep (l := a ++ [sep]) (by simp))
      have h1 : splitInclusive sep (c :: (a ++ sep :: b))
          = (c :: x) :: (xs ++ splitInclusive sep b) := by
        refine splitInclusive_cons_ne hc ?_
        rw [ih, hx, List.cons_append]
      have h2 : splitInclusive sep (c :: (a ++ [sep])) = (c :: x) :: xs :=
        splitInclusive_cons_ne hc hx
      simp only [List.cons_append, h1, h2]

theorem getLast?_cons_ne {sep c : Char} (hc : c ≠ sep) {p : List Char}
    (hp : p.getLast? ≠ some sep) : (c :: p).getLast? ≠ some sep := by
  rcases List.eq_nil_or_concat p with h | ⟨W, w, h⟩
  · subst h
    simp [hc]
  · subst h
    simp only [List.concat_eq_append] at hp ⊢
    rw [List.getLast?_concat] at hp
    rw [show c :: (W ++ [w]) = (c :: W) ++ [w] by simp, List.getLast?_concat]
    exact hp

theorem splitInclusive_concat_sep (sep : Char) :
    ∀ a : List Char,
      splitInclusive sep (a ++ [sep]) = splitInclusive sep a ++ [[sep]] ∨
      ∃ ps p, splitInclusive sep a = ps ++ [p] ∧ p.getLast? ≠ some sep ∧
        splitInclusive sep (a ++ [sep]) = ps ++ [p ++ [sep]] := by
  intro a
  induction a with
  | nil =>
    left
    rw [List.nil_append, splitInclusive_cons_sep]
    rfl
  | cons c a ih =>
    by_cases hc : c = sep
    · subst hc
      rcases ih with h | ⟨ps, p, h1, h2, h3⟩
      · left
        simp only [List.cons_append, splitInclusive_cons_sep, h]
      · right
        refine ⟨[c] :: ps, p, ?_, h2, ?_⟩
        · rw [splitInclusive_cons_sep, h1]
          rfl
        · rw [List.cons_append, splitInclusive_cons_sep, h3]
          rfl
    · cases a with
      | nil =>
        right
        refine ⟨[], [c], by simp [splitInclusive], getLast?_cons_ne hc (by simp), ?_⟩
        have : splitInclusive sep [sep] = [sep] :: [] := splitInclusive_cons_sep sep []
        rw [List.cons_append, List.nil_append, splitInclusive_cons_ne hc this]
        rfl
      | cons d u =>
        rcases ih with h | ⟨ps, p, h1, h2, h3⟩
        · left
          obtain ⟨y, ys, hy⟩ :=
            List.exists_cons_of_ne_nil (splitInclusive_ne_nil sep (l := d :: u) (by simp))
          have hL : splitInclusive sep (c :: ((d :: u) ++ [sep]))
              = (c :: y) :: (ys ++ [[sep]]) := by
            refine splitInclusive_cons_ne hc ?_
            rw [h, hy, List.cons_append]
          rw [List.cons_append, hL, splitInclusive_cons_ne hc hy]
          rfl
        · right
          cases ps with
          | nil =>
            refine ⟨[], c :: p, ?_, getLast?_cons_ne hc h2, ?_⟩
            · rw [splitInclusive_cons_ne hc (by rw [h1]; rfl)]
              rfl
            · have hstep : splitInclusive sep ((d :: u) ++ [sep]) = (p ++ [sep]) :: [] := by
                rw [h3]
                rfl
              rw [List.cons_append, splitInclusive_cons_ne hc hstep]
              simp
          | cons q qs =>
            refine ⟨(c :: q) :: qs, p, ?_, h2, ?_⟩
            · have hq : splitInclusive sep (d :: u) = q :: (qs ++ [p]) := by
                rw [h1]
                rfl
              rw [splitInclusive_cons_ne hc hq]
              rfl
            · have hq : splitInclusive sep ((d :: u) ++ [sep]) = q :: (qs ++ [p ++ [sep]]) := by
                rw [h3]
                rfl
              rw [List.cons_append, splitInclusive_cons_ne hc hq]
              rfl

/-! ### `parse` as a `filterMap` over inclusive pieces -/

theorem parse_eq_filterMap (data : List Char) :
    parse data = (splitInclusive '\n' data).filterMap
      (fun l => extractLine (trim (lineMap l))) := by
  unfold parse lines
  rw [List.map_map, List.filterMap_map]
  rfl

theorem trim_lineMap_concat {p : List Char} (hp : p.getLast? ≠ some '\n') :
    trim (lineMap (p ++ ['\n'])) = trim (lineMap p) := by
  rw [lineMap_of_ne hp]
  have hstep : lineMap (p ++ ['\n'])
      = if p.getLast? = some '\r' then p.dropLast else p := by
    unfold lineMap
    rw [List.getLast?_concat, if_pos rfl, List.dropLast_concat]
  rw [hstep]
  split
  · next hr =>
    rcases List.eq_nil_or_concat p with h | ⟨W, w, h⟩
    · subst h
      simp at hr
    · subst h
      simp only [List.concat_eq_append] at hr ⊢
      rw [List.getLast?_concat] at hr
      cases hr
      rw [List.dropLast_concat]
      exact (trim_concat_ws (by decide) W).symm
  · rfl

theorem extractLine_lineMap_newline : extractLine (trim (lineMap ['\n'])) = none := by
  decide

theorem parse_append_newline (a b : List Char) :
    parse (a ++ '\n' :: b) = parse a ++ parse b := by
  rw [parse_eq_filterMap, parse_eq_filterMap, parse_eq_filterMap,
    splitInclusive_append_sep '\n' b a, List.filterMap_append]
  congr 1
  rcases splitInclusive_concat_sep '\n' a with h | ⟨ps, p, h1, h2, h3⟩
  · rw [h, List.filterMap_append]
    simp [extractLine_lineMap_newline]
  · rw [h1, h3, List.filterMap_append, List.filterMap_append]
    congr 1
    have he : extractLine (trim (lineMap (p ++ ['\n'])))
        = extractLine (trim (lineMap p)) := by
      rw [trim_lineMap_concat h2]
    simp [List.filterMap_cons, he]

theorem parse_nil_of_blank_or_comment {data : List Char}
    (h : ∀ l ∈ lines data, trim l = [] ∨ (trim l).head? = some '#') :
    parse data = [] := by
  unfold parse
  rw [List.filterMap_eq_nil_iff]
  intro a ha
  rw [List.mem_map] at ha
  obtain ⟨l, hl, rfl⟩ := ha
  rcases h l hl with h0 | h0
  · rw [h0]
    exact extractLine_nil
  · exact extractLine_comment h0

/-! ### The claims -/

/-- C1, counterexample: the claim says a line of the form `=value` contributes
nothing, but `parse` emits the entry `("", "value")` for it: `parse_str ""` is
`some ""`, and `parse` never rejects an empty key. -/
theorem C1_counterexample :
    parse ("=value".toList) = [([], "value".toList)] ∧ parse ("=value".toList) ≠ [] := by
  exact ⟨by decide, by decide⟩

/-- C1, amended: a line whose key portion normalizes to the empty string still
emits an entry, with the empty string as its key: for any value text with no
quote character, no `'#'` and no line break, `parse ('=' :: v)` is
`[("", trim v)]`. -/
theorem C1_empty_key_entry (v : List Char)
    (hv : ∀ c ∈ v, isQuote c = false ∧ c ≠ '#' ∧ c ≠ '\n') :
    parse ('=' :: v) = [([], trim v)] := by
  have h := parse_single [] v (by simp) hv
  simpa using h

theorem C1_empty_key_entry_witness :
    parse ('=' :: ['v', 'a', 'l']) = [([], trim ['v', 'a', 'l'])] :=
  C1_empty_key_entry ['v', 'a', 'l'] (by decide)

/-- C2: on a value containing a quote character, the scan fixes the flavor at
the first quote character `qc` (at index `A.length`, after the non-quote prefix
`A`), sets `start` to that index plus one, sets `end` to the index of the next
occurrence of `qc` (namely `A.length + 1 + C.length`) minus one, and the result
is the checked slice `input.get(start .. start + end)`; that slice coincides
with the text `C` strictly between the two quotes exactly when the opening
quote sits at index 0. -/
theorem C2_quote_scan (A C D : List Char) (qc : Char)
    (hA : ∀ c ∈ A, isQuote c = false) (hq : isQuote qc = true)
    (hC : ∀ c ∈ C, c ≠ qc) :
    scanQuotes (A ++ qc :: (C ++ qc :: D)) 0 .Unknown none none
      = (some (A.length + 1), some ((A.length + 1 + C.length) - 1)) ∧
    parse_str (A ++ qc :: (C ++ qc :: D))
      = sliceGet (A ++ qc :: (C ++ qc :: D)) (A.length + 1)
          ((A.length + 1) + ((A.length + 1 + C.length) - 1)) ∧
    (parse_str (A ++ qc :: (C ++ qc :: D)) = some C ↔ A.length = 0) := by
  have hend : A.length + 1 + C.length - 1 = A.length + C.length := by omega
  have hslice := parse_str_quoted D hA hq hC
  have hlen := length_quoted A C D qc
  refine ⟨?_, ?_, ?_, ?_⟩
  · rw [hend, scanQuotes_main D hA hq hC]
  · rw [hend]
    exact hslice
  · intro h
    rw [hslice] at h
    unfold sliceGet at h
    split at h
    · next hcond =>
      have hx := (Option.some.injEq _ _).mp h
      have hlenx := congrArg List.length hx
      rw [List.length_take, List.length_drop] at hlenx
      omega
    · exact absurd h (by simp)
  · intro h
    have hA0 : A = [] := List.length_eq_zero.mp h
    subst hA0
    simp only [List.nil_append, List.length_nil, Nat.zero_add]
    exact parse_str_quoted_head C D hq hC

theorem C2_quote_scan_witness :
    scanQuotes (['x'] ++ '"' :: (['a'] ++ '"' :: ['z', 'z'])) 0 .Unknown none none
      = (some (['x'].length + 1), some ((['x'].length + 1 + ['a'].length) - 1)) ∧
    parse_str (['x'] ++ '"' :: (['a'] ++ '"' :: ['z', 'z']))
      = sliceGet (['x'] ++ '"' :: (['a'] ++ '"' :: ['z', 'z'])) (['x'].length + 1)
          ((['x'].length + 1) + ((['x'].length + 1 + ['a'].length) - 1)) ∧
    (parse_str (['x'] ++ '"' :: (['a'] ++ '"' :: ['z', 'z'])) = some ['a']
      ↔ (['x'] : List Char).length = 0) :=
  C2_quote_scan ['x'] ['a'] ['z', 'z'] '"' (by decide) (by decide) (by decide)

/-- C3, counterexample: the claim says every emitted value is trimmed of
surrounding whitespace, but a quoted value keeps its interior verbatim:
`K=" a "` is emitted as `(K, " a ")`, and `" a "` is not equal to its own
trim. -/
theorem C3_counterexample :
    parse ("K=\" a \"".toList) = [(['K'], [' ', 'a', ' '])] ∧
    trim [' ', 'a', ' '] ≠ [' ', 'a', ' '] := by
  exact ⟨by decide, by decide⟩

/-- C3, amended: an unquoted value is trimmed of surrounding whitespace (the
normalizer's no-quote branch always returns a trimmed string, possibly empty —
`K=` emits `(K, "")`), but a quoted value's interior is preserved verbatim,
including its leading and trailing spaces. -/
theorem C3_value_trimming :
    (∀ v : List Char, (∀ c ∈ v, isQuote c = false) →
      ∃ w, parse_str v = some w ∧ trim w = w) ∧
    parse ("K=".toList) = [(['K'], [])] ∧
    parse ("K=\" a \"".toList) = [(['K'], [' ', 'a', ' '])] := by
  refine ⟨?_, by decide, by decide⟩
  intro v hv
  exact ⟨trim (v.takeWhile (fun c => c ≠ '#')), parse_str_no_quote hv, trim_idem _⟩

theorem C3_value_trimming_witness :
    ∃ w, parse_str ['x'] = some w ∧ trim w = w :=
  C3_value_trimming.1 ['x'] (by decide)

/-- C4, counterexample: the normalizer's output `" a "` (from the quoted input
`" a "` in quotes) contains no quote character and no `'#'`, yet running the
normalizer on it again trims it to `"a"`, so the claimed idempotence fails. -/
theorem C4_counterexample :
    parse_str ("\" a \"".toList) = some [' ', 'a', ' '] ∧
    (∀ c ∈ ([' ', 'a', ' '] : List Char), isQuote c = false ∧ c ≠ '#') ∧
    parse_str [' ', 'a', ' '] ≠ some [' ', 'a', ' '] := by
  exact ⟨by decide, by decide, by decide⟩

/-- C4, amended: the normalizer is idempotent on values with no quote
character, no `'#'` **and no surrounding whitespace**: on such a value it
returns the value unchanged. (A quoted value's interior may carry surrounding
whitespace, on which renormalizing trims.) -/
theorem C4_normalizer_idempotent (v : List Char)
    (h : ∀ c ∈ v, isQuote c = false ∧ c ≠ '#') (ht : trim v = v) :
    parse_str v = some v := by
  rw [parse_str_clean h, ht]

theorem C4_normalizer_idempotent_witness :
    parse_str ['a', 'b'] = some ['a', 'b'] :=
  C4_normalizer_idempotent ['a', 'b'] (by decide) (by decide)

/-- C5: parsing is total and errorless — every line of an input whose lines
all trim to blank or start with `'#'` contributes nothing (the result is
`[]`), and malformed candidate lines (no `'='`; an unmatched quote in the
value) likewise contribute no entry rather than an error. -/
theorem C5_no_errors :
    (∀ data : List Char,
      (∀ l ∈ lines data, trim l = [] ∨ (trim l).head? = some '#') →
      parse data = []) ∧
    parse ("noequals".toList) = [] ∧
    parse ("K='unmatched".toList) = [] := by
  refine ⟨?_, by decide, by decide⟩
  exact fun data h => parse_nil_of_blank_or_comment h

theorem C5_no_errors_witness :
    parse ("# c\n\n   \n## x".toList) = [] :=
  C5_no_errors.1 ("# c\n\n   \n## x".toList) (by decide)

/-- C6: a single `KEY=value` line whose key contains no quote, `'#'`, `'='` or
line break and whose value contains no quote, `'#'` or line break parses to
exactly the one entry `(trim KEY, trim value)`. -/
theorem C6_simple_line (K V : List Char)
    (hK : ∀ c ∈ K, isQuote c = false ∧ c ≠ '#' ∧ c ≠ '=' ∧ c ≠ '\n')
    (hV : ∀ c ∈ V, isQuote c = false ∧ c ≠ '#' ∧ c ≠ '\n') :
    parse (K ++ '=' :: V) = [(trim K, trim V)] :=
  parse_single K V hK hV

theorem C6_simple_line_witness :
    parse (['K', 'E', 'Y'] ++ '=' :: [' ', 'v', 'a', 'l', ' '])
      = [(trim ['K', 'E', 'Y'], trim [' ', 'v', 'a', 'l', ' '])] :=
  C6_simple_line ['K', 'E', 'Y'] [' ', 'v', 'a', 'l', ' '] (by decide) (by decide)

/-- C7: a `'#'` inside the detected quote pair is not a comment marker —
`FOO="#bar"` parses to exactly `[("FOO", "#bar")]`, the `'#'` preserved in the
value. -/
theorem C7_hash_in_quotes :
    parse ("FOO=\"#bar\"".toList) = [("FOO".toList, "#bar".toList)] := by
  decide

/-- C8: the outer quote pair is stripped exactly once and opposite-flavor
quotes strictly inside it are preserved verbatim: `TEST_FOO = "'nested'"`
yields `[("TEST_FOO", "'nested'")]` and `TEST_BAR = '"nested"'` yields
`[("TEST_BAR", "\"nested\"")]`. -/
theorem C8_nested_quotes :
    parse ("TEST_FOO = \"'nested'\"".toList)
      = [("TEST_FOO".toList, "'nested'".toList)] ∧
    parse ("TEST_BAR = '\"nested\"'".toList)
      = [("TEST_BAR".toList, "\"nested\"".toList)] := by
  exact ⟨by decide, by decide⟩

/-- C9: output order follows source order — parsing text split by a line
terminator concatenates the two parts' results in order (so entries appear in
the order of their originating lines, whatever blank or comment lines sit
between them), and duplicate entries are kept, not deduplicated. -/
theorem C9_order_preservation :
    (∀ a b : List Char, parse (a ++ '\n' :: b) = parse a ++ parse b) ∧
    parse ("K=1\n#c\n\nK=1".toList)
      = [("K".toList, "1".toList), ("K".toList, "1".toList)] := by
  exact ⟨parse_append_newline, by decide⟩

theorem C9_order_preservation_witness :
    parse (['K', '=', '1'] ++ '\n' :: ['J', '=', '2'])
      = parse ['K', '=', '1'] ++ parse ['J', '=', '2'] :=
  C9_order_preservation.1 ['K', '=', '1'] ['J', '=', '2']

/-- C10: the final slice of the quoted path is a checked lookup — on
`K=ab"c"` both delimiters are found (`start = 3`, `end = 3`) but
`start + end` exceeds the value's length, so `parse_str` yields `none` and the
line is silently dropped instead of producing an entry or failing. -/
theorem C10_checked_slice :
    scanQuotes ("ab\"c\"".toList) 0 .Unknown none none = (some 3, some 3) ∧
    ("ab\"c\"".toList).length < 3 + 3 ∧
    parse_str ("ab\"c\"".toList) = none ∧
    parse ("K=ab\"c\"".toList) = [] := by
  exact ⟨by decide, by decide, by decide, by decide⟩

end SimpleEnvLoad
